import Mathlib

/-!
Verification of the two CSV utilities in this repository.

`check.py` (the Deduplicator) reads the files matching `ccs-2025-*.csv` in
sorted order, normalizes the "E-mail 1 - Value" column with
`astype(str).str.strip().str.lower()`, drops the rows whose normalized
email is already in the accumulated `seen_emails` set, writes the surviving
rows back in place and reports the removed count per file.

`csv-appender.py` (the Merger) reads a fixed list of CSV files, skips the
rows whose email cell is absent or the empty string, strips the remaining
values, and maintains `email_order` / `seen` so that the output file
`master-2025.csv` lists each email once, at the position of its last
occurrence across the concatenated input.

Strings are modelled by Lean `String` (a structure holding a list of
characters); Python `str.strip` and `str.lower` are embedded below as
`pyStrip` and `pyLower`.  A CSV cell as read by `pandas` or `csv` is
modelled as `Option String`: `none` stands for a missing value (pandas
`NaN`, produced by an empty field or one of the default NA tokens, and
`csv.DictReader`'s absent key).  The columns other than the email column
are carried through as an opaque `List String` payload.
-/

/-- Python whitespace test for one character (the ASCII part of the default
`str.strip` character set: space, tab, newline, vertical tab, form feed,
carriage return). -/
def isPySpace (c : Char) : Bool :=
  c.toNat == 32 || c.toNat == 9 || c.toNat == 10 || c.toNat == 11 ||
    c.toNat == 12 || c.toNat == 13

/-- Lower-casing of one character, as Python `str.lower` acts on ASCII:
the letters `A`..`Z` (codes 65..90) are shifted by 32, everything else is
kept. -/
def lowerChar (c : Char) : Char :=
  if 65 ≤ c.toNat ∧ c.toNat ≤ 90 then Char.ofNat (c.toNat + 32) else c

/-- Drop leading whitespace, then trailing whitespace: Python `str.strip`
on a list of characters. -/
def stripChars (l : List Char) : List Char :=
  ((l.dropWhile isPySpace).reverse.dropWhile isPySpace).reverse

/-- Embedding of Python `str.strip()`. -/
def pyStrip (s : String) : String := ⟨stripChars s.data⟩

/-- Embedding of Python `str.lower()`. -/
def pyLower (s : String) : String := ⟨s.data.map lowerChar⟩

theorem toNat_lowerChar_of_upper {c : Char}
    (h : 65 ≤ c.toNat ∧ c.toNat ≤ 90) :
    (lowerChar c).toNat = c.toNat + 32 := by
  unfold lowerChar
  rw [if_pos h]
  have hv : (c.toNat + 32).isValidChar := Or.inl (by omega)
  unfold Char.ofNat
  rw [dif_pos hv]
  simp [Char.ofNatAux, Char.toNat, UInt32.toNat, BitVec.toNat_ofNatLt]

theorem lowerChar_of_not_upper {c : Char}
    (h : ¬ (65 ≤ c.toNat ∧ c.toNat ≤ 90)) : lowerChar c = c := by
  simp [lowerChar, h]

theorem isPySpace_lowerChar (c : Char) :
    isPySpace (lowerChar c) = isPySpace c := by
  by_cases h : 65 ≤ c.toNat ∧ c.toNat ≤ 90
  · have h1 := toNat_lowerChar_of_upper h
    have ha : isPySpace (lowerChar c) = false := by
      simp only [isPySpace, h1, Bool.or_eq_false_iff, beq_eq_false_iff_ne,
        ne_eq]
      omega
    have hb : isPySpace c = false := by
      simp only [isPySpace, Bool.or_eq_false_iff, beq_eq_false_iff_ne, ne_eq]
      omega
    rw [ha, hb]
  · rw [lowerChar_of_not_upper h]

theorem lowerChar_idem (c : Char) : lowerChar (lowerChar c) = lowerChar c := by
  by_cases h : 65 ≤ c.toNat ∧ c.toNat ≤ 90
  · have h1 := toNat_lowerChar_of_upper h
    exact lowerChar_of_not_upper (by omega)
  · simp [lowerChar_of_not_upper h]

theorem dropWhile_map_lowerChar (l : List Char) :
    (l.map lowerChar).dropWhile isPySpace =
      (l.dropWhile isPySpace).map lowerChar := by
  have hfun : isPySpace ∘ lowerChar = isPySpace := funext isPySpace_lowerChar
  rw [List.dropWhile_map, hfun]

theorem stripChars_map_lowerChar (l : List Char) :
    stripChars (l.map lowerChar) = (stripChars l).map lowerChar := by
  unfold stripChars
  rw [dropWhile_map_lowerChar, ← List.map_reverse, dropWhile_map_lowerChar,
    ← List.map_reverse]

theorem isPySpace_head_of_dropWhile {l t : List Char} {c : Char}
    (h : l.dropWhile isPySpace = c :: t) : isPySpace c = false := by
  induction l with
  | nil => simp [List.dropWhile] at h
  | cons x xs ih =>
    rw [List.dropWhile_cons] at h
    by_cases hx : isPySpace x = true
    · rw [if_pos hx] at h
      exact ih h
    · rw [if_neg hx] at h
      cases h
      simpa using hx

theorem dropWhile_isPySpace_idem (l : List Char) :
    (l.dropWhile isPySpace).dropWhile isPySpace = l.dropWhile isPySpace := by
  cases h : l.dropWhile isPySpace with
  | nil => simp
  | cons c t =>
    rw [List.dropWhile_cons, if_neg]
    simp [isPySpace_head_of_dropWhile h]

theorem stripChars_idem (l : List Char) :
    stripChars (stripChars l) = stripChars l := by
  have hpre : stripChars l <+: l.dropWhile isPySpace := by
    apply List.reverse_suffix.mp
    have hs : (l.dropWhile isPySpace).reverse.dropWhile isPySpace <:+
        (l.dropWhile isPySpace).reverse := List.dropWhile_suffix _
    have hrev : (stripChars l).reverse =
        (l.dropWhile isPySpace).reverse.dropWhile isPySpace := by
      simp [stripChars]
    rw [hrev]
    exact hs
  have h1 : (stripChars l).dropWhile isPySpace = stripChars l := by
    cases hA : stripChars l with
    | nil => simp
    | cons c t =>
      obtain ⟨r, hr⟩ := hpre
      rw [hA] at hr
      have hhead : isPySpace c = false :=
        isPySpace_head_of_dropWhile (l := l) (by rw [← hr]; rfl)
      rw [List.dropWhile_cons, if_neg]
      simp [hhead]
  show (((stripChars l).dropWhile isPySpace).reverse.dropWhile
      isPySpace).reverse = stripChars l
  rw [h1]
  have h2 : (stripChars l).reverse =
      (l.dropWhile isPySpace).reverse.dropWhile isPySpace := by
    simp [stripChars]
  rw [h2, dropWhile_isPySpace_idem]
  rfl

theorem pyStrip_pyLower (s : String) :
    pyStrip (pyLower s) = pyLower (pyStrip s) := by
  apply String.ext
  simp [pyStrip, pyLower, stripChars_map_lowerChar]

theorem pyStrip_idem (s : String) : pyStrip (pyStrip s) = pyStrip s := by
  apply String.ext
  simp [pyStrip, stripChars_idem]

theorem pyLower_idem (s : String) : pyLower (pyLower s) = pyLower s := by
  apply String.ext
  simp only [pyLower, List.map_map]
  exact List.map_congr_left fun c _ => lowerChar_idem c

/-- State of `csv-appender.py`: the `email_order` list and the `seen` set.
The Python set is modelled as the list of values added to it and is used
only through membership. -/
structure MState where
  email_order : List String
  seen : List String
deriving DecidableEq

/-- Loop body of `csv-appender.py` for one row, given the row's
"E-mail 1 - Value" cell (`none` when the key is absent): skip when the
cell is `None` or the empty string, else strip, remove the prior position
from `email_order` when already seen, mark seen and append. -/
def mergeRow (st : MState) (cell : Option String) : MState :=
  match cell with
  | none => st
  | some e0 =>
    if e0 = "" then st
    else
      let email := pyStrip e0
      ⟨(if email ∈ st.seen then st.email_order.erase email
          else st.email_order) ++ [email],
        st.seen ++ [email]⟩

/-- The full double loop of `csv-appender.py`: fold over the files in
listed order and, within each file, over its rows. -/
def mergerRun (files : List (List (Option String))) : MState :=
  files.foldl (fun st rows => rows.foldl mergeRow st) ⟨[], []⟩

/-- Data rows of the output file `master-2025.csv` (one email per row,
below the header): the final `email_order` list. -/
def merger (files : List (List (Option String))) : List String :=
  (mergerRun files).email_order

/-- Email contributed by one row to the processed sequence: `none` when
the row is skipped (cell absent or empty string), otherwise the stripped
value. -/
def processCell : Option String → Option String
  | none => none
  | some e0 => if e0 = "" then none else some (pyStrip e0)

/-- Sequence of emails the merger processes: the rows of all files
concatenated in listed order, with the skip rule and stripping applied. -/
def mergedStream (files : List (List (Option String))) : List String :=
  files.flatten.filterMap processCell

/-- Index of the last occurrence of `x` in `l` (0 when `x` is absent; the
value is meaningful only under `x ∈ l`). -/
def lastIdx (l : List String) (x : String) : Nat :=
  match l with
  | [] => 0
  | _ :: ys => if x ∈ ys then lastIdx ys x + 1 else 0

theorem lastIdx_lt_length {l : List String} {x : String} (h : x ∈ l) :
    lastIdx l x < l.length := by
  induction l with
  | nil => cases h
  | cons y ys ih =>
    by_cases hx : x ∈ ys
    · simpa [lastIdx, hx] using ih hx
    · simp [lastIdx, hx]

theorem get_lastIdx {l : List String} {x : String} (h : x ∈ l) :
    l.get ⟨lastIdx l x, lastIdx_lt_length h⟩ = x := by
  induction l with
  | nil => cases h
  | cons y ys ih =>
    by_cases hx : x ∈ ys
    · simpa [lastIdx, hx] using ih hx
    · rcases List.mem_cons.mp h with h1 | h1
      · subst h1
        simp [lastIdx, hx]
      · exact absurd h1 hx

theorem ne_of_gt_lastIdx {l : List String} {x : String} {j : Nat}
    (hj : j < l.length) (hgt : lastIdx l x < j) :
    l.get ⟨j, hj⟩ ≠ x := by
  induction l generalizing j with
  | nil => exact absurd hj (Nat.not_lt_zero j)
  | cons y ys ih =>
    by_cases hx : x ∈ ys
    · rw [show lastIdx (y :: ys) x = lastIdx ys x + 1 by simp [lastIdx, hx]]
        at hgt
      cases j with
      | zero => omega
      | succ j' =>
        have hj' : j' < ys.length := by simpa using hj
        simpa using ih hj' (by omega)
    · cases j with
      | zero =>
        rw [show lastIdx (y :: ys) x = 0 by simp [lastIdx, hx]] at hgt
        omega
      | succ j' =>
        have hj' : j' < ys.length := by simpa using hj
        have hred : (y :: ys).get ⟨j' + 1, hj⟩ = ys.get ⟨j', hj'⟩ := rfl
        rw [hred]
        intro hcontra
        exact hx (hcontra ▸ List.get_mem ys j' hj')

theorem lastIdx_append_self (P : List String) (e : String) :
    lastIdx (P ++ [e]) e = P.length := by
  induction P with
  | nil => simp [lastIdx]
  | cons y ys ih => simp [lastIdx, ih]

theorem lastIdx_append_ne {x e : String} (P : List String) (hne : x ≠ e) :
    lastIdx (P ++ [e]) x = lastIdx P x := by
  induction P with
  | nil => simp [lastIdx, hne]
  | cons y ys ih =>
    by_cases hx : x ∈ ys
    · simp [lastIdx, hx, ih]
    · have hnm : ¬ x ∈ ys ++ [e] := by simp [hx, hne]
      simp [lastIdx, hx, hnm]

/-- Invariant tying the merger state to the sequence `P` of emails
processed so far: `email_order` has no duplicates, `email_order` and
`seen` both hold exactly the emails of `P`, and `email_order` is strictly
sorted by last occurrence in `P`. -/
def GoodState (st : MState) (P : List String) : Prop :=
  st.email_order.Nodup ∧
    (∀ x, x ∈ st.email_order ↔ x ∈ P) ∧
    (∀ x, x ∈ st.seen ↔ x ∈ P) ∧
    st.email_order.Pairwise fun a b => lastIdx P a < lastIdx P b

/-- State transition for one processed (non-skipped, stripped) email:
the `remove`-when-seen / `add` / `append` block of the source. -/
def coreStep (st : MState) (email : String) : MState :=
  ⟨(if email ∈ st.seen then st.email_order.erase email
      else st.email_order) ++ [email],
    st.seen ++ [email]⟩

theorem mergeRow_processCell (st : MState) (cell : Option String) :
    mergeRow st cell = match processCell cell with
      | none => st
      | some e => coreStep st e := by
  cases cell with
  | none => rfl
  | some e0 =>
    by_cases h : e0 = ""
    · simp [mergeRow, processCell, h]
    · simp [mergeRow, processCell, h, coreStep]

theorem foldl_mergeRow_filterMap (cells : List (Option String)) :
    ∀ st, cells.foldl mergeRow st =
      (cells.filterMap processCell).foldl coreStep st := by
  induction cells with
  | nil => intro st; rfl
  | cons c cs ih =>
    intro st
    rw [List.foldl_cons, mergeRow_processCell]
    cases hc : processCell c with
    | none => rw [List.filterMap_cons, hc]; exact ih st
    | some e => rw [List.filterMap_cons, hc, List.foldl_cons]; exact ih _

theorem mergerRun_eq_foldl_flatten (files : List (List (Option String))) :
    mergerRun files = files.flatten.foldl mergeRow ⟨[], []⟩ :=
  (List.foldl_flatten _ _ _).symm

theorem goodState_coreStep {st : MState} {P : List String}
    (hg : GoodState st P) (e : String) :
    GoodState (coreStep st e) (P ++ [e]) := by
  obtain ⟨nd, hord, hseen, pw⟩ := hg
  by_cases he : e ∈ st.seen
  · have heP : e ∈ P := (hseen e).mp he
    have heo : e ∈ st.email_order := (hord e).mpr heP
    have hmemE : ∀ x, x ∈ st.email_order.erase e ↔ x ≠ e ∧
        x ∈ st.email_order := fun x => nd.mem_erase_iff
    refine ⟨?_, ?_, ?_, ?_⟩
    · rw [show (coreStep st e).email_order =
        st.email_order.erase e ++ [e] by simp [coreStep, he]]
      rw [List.nodup_append]
      refine ⟨nd.erase e, List.nodup_singleton e, ?_⟩
      intro x hx hx1
      rw [List.mem_singleton] at hx1
      subst hx1
      exact ((hmemE x).mp hx).1 rfl
    · intro x
      rw [show (coreStep st e).email_order =
        st.email_order.erase e ++ [e] by simp [coreStep, he]]
      simp only [List.mem_append, List.mem_singleton, hmemE x, hord x]
      by_cases hxe : x = e
      · subst hxe; simp [heP]
      · simp [hxe]
    · intro x
      simp only [coreStep, List.mem_append, List.mem_singleton, hseen x]
    · rw [show (coreStep st e).email_order =
        st.email_order.erase e ++ [e] by simp [coreStep, he]]
      rw [List.pairwise_append]
      refine ⟨?_, List.pairwise_singleton _ _, ?_⟩
      · have pwE : (st.email_order.erase e).Pairwise
            fun a b => lastIdx P a < lastIdx P b :=
          pw.sublist (List.erase_sublist e st.email_order)
        refine pwE.imp_of_mem ?_
        intro a b ha hb hab
        rw [lastIdx_append_ne P ((hmemE a).mp ha).1,
          lastIdx_append_ne P ((hmemE b).mp hb).1]
        exact hab
      · intro a ha b hb
        rw [List.mem_singleton] at hb
        subst hb
        have haP : a ∈ P := (hord a).mp ((hmemE a).mp ha).2
        rw [lastIdx_append_ne P ((hmemE a).mp ha).1, lastIdx_append_self]
        exact lastIdx_lt_length haP
  · have heP : ¬ e ∈ P := fun h => he ((hseen e).mpr h)
    have heo : ¬ e ∈ st.email_order := fun h => heP ((hord e).mp h)
    refine ⟨?_, ?_, ?_, ?_⟩
    · rw [show (coreStep st e).email_order =
        st.email_order ++ [e] by simp [coreStep, he]]
      rw [List.nodup_append]
      refine ⟨nd, List.nodup_singleton e, ?_⟩
      intro x hx hx1
      rw [List.mem_singleton] at hx1
      subst hx1
      exact heo hx
    · intro x
      rw [show (coreStep st e).email_order =
        st.email_order ++ [e] by simp [coreStep, he]]
      simp [hord x]
    · intro x
      simp only [coreStep, List.mem_append, List.mem_singleton, hseen x]
    · rw [show (coreStep st e).email_order =
        st.email_order ++ [e] by simp [coreStep, he]]
      rw [List.pairwise_append]
      refine ⟨?_, List.pairwise_singleton _ _, ?_⟩
      · refine pw.imp_of_mem ?_
        intro a b ha hb hab
        have hae : a ≠ e := fun h => heo (h ▸ ha)
        have hbe : b ≠ e := fun h => heo (h ▸ hb)
        rw [lastIdx_append_ne P hae, lastIdx_append_ne P hbe]
        exact hab
      · intro a ha b hb
        rw [List.mem_singleton] at hb
        rw [hb]
        have hae : a ≠ e := fun h => heo (h ▸ ha)
        have haP : a ∈ P := (hord a).mp ha
        rw [lastIdx_append_ne P hae, lastIdx_append_self]
        exact lastIdx_lt_length haP

theorem goodState_foldl {P : List String} {st : MState}
    (hg : GoodState st P) :
    ∀ E, GoodState (E.foldl coreStep st) (P ++ E) := by
  intro E
  induction E generalizing P st with
  | nil => simpa using hg
  | cons e es ih =>
    rw [show P ++ e :: es = P ++ [e] ++ es by simp]
    exact ih (goodState_coreStep hg e)

theorem goodState_mergerRun (files : List (List (Option String))) :
    GoodState (mergerRun files) (mergedStream files) := by
  have h0 : GoodState ⟨[], []⟩ ([] : List String) :=
    ⟨List.nodup_nil, by simp, by simp, List.Pairwise.nil⟩
  have h := goodState_foldl h0 (mergedStream files)
  rw [List.nil_append] at h
  rw [mergerRun_eq_foldl_flatten, foldl_mergeRow_filterMap]
  exact h

theorem indexOf_lt_of_pairwise {l E : List String}
    (pw : l.Pairwise fun a b => lastIdx E a < lastIdx E b)
    {a b : String} (ha : a ∈ l) (hb : b ∈ l)
    (hab : lastIdx E a < lastIdx E b) :
    l.indexOf a < l.indexOf b := by
  have hia : l.indexOf a < l.length := List.indexOf_lt_length.mpr ha
  have hib : l.indexOf b < l.length := List.indexOf_lt_length.mpr hb
  rcases Nat.lt_trichotomy (l.indexOf a) (l.indexOf b) with h | h | h
  · exact h
  · exfalso
    have hfin : (⟨l.indexOf a, hia⟩ : Fin l.length) = ⟨l.indexOf b, hib⟩ :=
      Fin.ext h
    have h1 := List.indexOf_get (a := a) (l := l) hia
    have h2 := List.indexOf_get (a := b) (l := l) hib
    rw [hfin, h2] at h1
    rw [h1] at hab
    exact lt_irrefl _ hab
  · exfalso
    have hr := List.pairwise_iff_get.mp pw ⟨l.indexOf b, hib⟩
      ⟨l.indexOf a, hia⟩ h
    rw [List.indexOf_get, List.indexOf_get] at hr
    omega

/-- C1: Merger correctness.  For every input file list, each email of the
processed sequence (all files concatenated in listed order, after the
skip rule and stripping) occurs exactly once in the output order list,
and the output is ordered by last occurrence: when the last occurrence of
`a` precedes the last occurrence of `b` in the processed sequence, `a` is
listed before `b` in `master-2025.csv`. -/
theorem merger_last_occurrence_order (files : List (List (Option String))) :
    (merger files).Nodup ∧
      (∀ e, e ∈ merger files ↔ e ∈ mergedStream files) ∧
      ∀ a b, a ∈ mergedStream files → b ∈ mergedStream files →
        lastIdx (mergedStream files) a < lastIdx (mergedStream files) b →
        (merger files).indexOf a < (merger files).indexOf b := by
  obtain ⟨nd, hord, _, pw⟩ := goodState_mergerRun files
  refine ⟨nd, hord, ?_⟩
  intro a b ha hb hab
  exact indexOf_lt_of_pairwise pw ((hord a).mpr ha) ((hord b).mpr hb) hab

/-- Witness for the merger ordering theorem, at the worked example of the
specification: emails a, b, c with b re-occurring in the second file. -/
theorem merger_last_occurrence_order_witness :
    "a@x.com" ∈ mergedStream [[some "a@x.com", some "b@x.com"],
        [some "b@x.com", some "c@x.com"]] ∧
      (merger [[some "a@x.com", some "b@x.com"],
          [some "b@x.com", some "c@x.com"]]).indexOf "a@x.com" <
        (merger [[some "a@x.com", some "b@x.com"],
          [some "b@x.com", some "c@x.com"]]).indexOf "b@x.com" :=
  ⟨by decide,
    (merger_last_occurrence_order [[some "a@x.com", some "b@x.com"],
        [some "b@x.com", some "c@x.com"]]).2.2 "a@x.com" "b@x.com"
      (by decide) (by decide) (by decide)⟩

/-- C9: implicit merger invariant.  After every processed row (that is,
after any prefix of the concatenated row stream), the `email_order` list
contains no duplicate entries and its elements are exactly the `seen`
set; consequently the final output file lists pairwise-distinct emails. -/
theorem merger_order_seen_invariant (files : List (List (Option String))) :
    (∀ p, p <+: files.flatten →
        ((p.foldl mergeRow ⟨[], []⟩).email_order.Nodup ∧
          ∀ x, x ∈ (p.foldl mergeRow ⟨[], []⟩).email_order ↔
            x ∈ (p.foldl mergeRow ⟨[], []⟩).seen)) ∧
      (merger files).Nodup := by
  have base : ∀ (p : List (Option String)),
      (p.foldl mergeRow ⟨[], []⟩).email_order.Nodup ∧
        ∀ x, x ∈ (p.foldl mergeRow ⟨[], []⟩).email_order ↔
          x ∈ (p.foldl mergeRow ⟨[], []⟩).seen := by
    intro p
    rw [foldl_mergeRow_filterMap]
    have h0 : GoodState ⟨[], []⟩ ([] : List String) :=
      ⟨List.nodup_nil, by simp, by simp, List.Pairwise.nil⟩
    obtain ⟨nd, hord, hseen, _⟩ :=
      goodState_foldl h0 (p.filterMap processCell)
    exact ⟨nd, fun x => (hord x).trans (hseen x).symm⟩
  exact ⟨fun p _ => base p, (goodState_mergerRun files).1⟩

/-- Witness for the merger invariant theorem at a one-row prefix of a
two-file input. -/
theorem merger_order_seen_invariant_witness :
    ([some "a@x.com"].foldl mergeRow ⟨[], []⟩).email_order.Nodup ∧
      ∀ x, x ∈ ([some "a@x.com"].foldl mergeRow ⟨[], []⟩).email_order ↔
        x ∈ ([some "a@x.com"].foldl mergeRow ⟨[], []⟩).seen :=
  (merger_order_seen_invariant [[some "a@x.com"], [some "b@x.com"]]).1
    [some "a@x.com"] ⟨[some "b@x.com"], rfl⟩

/-- C10: a row whose email cell is present but consists only of
whitespace is not skipped (the skip test fires only on an absent cell or
the empty string, before stripping); after stripping it contributes the
empty string, so the output file contains exactly one row with an empty
email whenever some input row's email is whitespace-only, and all such
rows collapse to that single empty entry. -/
theorem merger_whitespace_only_email (files : List (List (Option String)))
    (h : ∃ s, some s ∈ files.flatten ∧ s ≠ "" ∧ pyStrip s = "") :
    "" ∈ merger files ∧ List.count "" (merger files) = 1 := by
  obtain ⟨s, hmem, hne, hstrip⟩ := h
  obtain ⟨nd, hord, _, _⟩ := goodState_mergerRun files
  have hE : "" ∈ mergedStream files :=
    List.mem_filterMap.mpr ⟨some s, hmem, by simp [processCell, hne, hstrip]⟩
  have hout : "" ∈ merger files := (hord "").mpr hE
  exact ⟨hout, List.count_eq_one_of_mem nd hout⟩

/-- Witness for the whitespace-only email theorem: a single file whose
single row's email is two spaces. -/
theorem merger_whitespace_only_email_witness :
    "" ∈ merger [[some "  "]] ∧ List.count "" (merger [[some "  "]]) = 1 :=
  merger_whitespace_only_email [[some "  "]]
    ⟨"  ", by decide, by decide, by decide⟩

/-- Result of reading the merger's input files, where `none` marks a file
that cannot be opened: reading aborts at the first missing file, as the
failed `open` raises an uncaught error. -/
def readInputs : List (Option (List (Option String))) →
    Option (List (List (Option String)))
  | [] => some []
  | none :: _ => none
  | some f :: rest => (readInputs rest).map (f :: ·)

/-- A whole run of `csv-appender.py` over possibly-missing input files.
In the source, `master-2025.csv` is opened for writing only after every
input file has been fully consumed, so a failed run produces no output
file at all; the absent output is modelled by `none`. -/
def runMerger (inputs : List (Option (List (Option String)))) :
    Option (List String) :=
  (readInputs inputs).map merger

/-- C7: merger failure atomicity.  If any input file is missing, the run
dies with an uncaught error and `master-2025.csv` is never written: no
partial output exists, because the output file is opened only after all
input files have been read. -/
theorem merger_missing_input_no_output
    (inputs : List (Option (List (Option String))))
    (h : none ∈ inputs) : runMerger inputs = none := by
  induction inputs with
  | nil => cases h
  | cons i rest ih =>
    cases i with
    | none => rfl
    | some f =>
      have hr : none ∈ rest := by
        rcases List.mem_cons.mp h with h1 | h1
        · exact absurd h1 (by simp)
        · exact h1
      have h2 := ih hr
      rw [runMerger, Option.map_eq_none'] at h2
      rw [runMerger, readInputs, h2]
      rfl

/-- Witness for the missing-input theorem: one readable file followed by
a missing one. -/
theorem merger_missing_input_no_output_witness :
    runMerger [some [some "a@x.com"], none] = none :=
  merger_missing_input_no_output [some [some "a@x.com"], none] (by decide)

/-- Row of a CSV file as read by `pandas.read_csv` in `check.py`: the
"E-mail 1 - Value" cell is `none` when pandas parsed it as `NaN` (an
empty field or a default NA token), and the remaining columns are carried
as an opaque payload. -/
structure Row where
  email : Option String
  rest : List String
deriving DecidableEq

/-- Row after `check.py` has overwritten the email column with its
normalized value: the email is a plain string. -/
structure CRow where
  email : String
  rest : List String
deriving DecidableEq

/-- Embedding of pandas `astype(str)` on one email cell: `NaN` is
stringified to the literal `"nan"`, a present string is unchanged. -/
def toStrCell : Option String → String
  | some s => s
  | none => "nan"

/-- Normalized email key of `check.py`:
`astype(str).str.strip().str.lower()`. -/
def normEmail (c : Option String) : String :=
  pyLower (pyStrip (toStrCell c))

/-- Embedding of
`df[EMAIL_COL] = df[EMAIL_COL].astype(str).str.strip().str.lower()`. -/
def normalizeFile (rows : List Row) : List CRow :=
  rows.map fun r => ⟨normEmail r.email, r.rest⟩

/-- One iteration of the per-file loop of `check.py`: normalize the email
column, keep exactly the rows whose email is not in `seen_emails`
(`mask = ~df[EMAIL_COL].isin(seen_emails)`), then add the kept rows'
emails to `seen_emails`.  The first component is the pair of the rows
written back to the file and the printed removed-row count; the second is
the updated `seen_emails`. -/
def processFile (seen : List String) (rows : List Row) :
    (List CRow × Nat) × List String :=
  let df := normalizeFile rows
  let cleaned := df.filter fun r => decide (¬ r.email ∈ seen)
  ((cleaned, df.length - cleaned.length),
    seen ++ cleaned.map fun r => r.email)

/-- The per-file loop of `check.py` over the sorted file list: for each
file in order, the rows written back and the removed-row count. -/
def runDedup (seen : List String) :
    List (List Row) → List (List CRow × Nat)
  | [] => []
  | f :: fs =>
    (processFile seen f).1 :: runDedup (processFile seen f).2 fs

/-- The `seen_emails` set as it stands when each file starts being
processed. -/
def seensBefore (seen : List String) :
    List (List Row) → List (List String)
  | [] => []
  | f :: fs => seen :: seensBefore (processFile seen f).2 fs

theorem processFile_seen_eq (seen : List String) (rows : List Row) :
    (processFile seen rows).2 =
      seen ++ (processFile seen rows).1.1.map fun r => r.email := rfl

/-- C8: Deduplicator worked example.  With file1 holding exactly one row
with email "X@Y.com" and file2 holding exactly one row with email
"x@y.com " (trailing space), processed in that order: file1's row is kept
with its email column rewritten to "x@y.com", and file2's row is removed
as a duplicate, with a reported removed count of 1 and zero data rows
written back to file2. -/
theorem dedup_worked_example :
    runDedup [] [[⟨some "X@Y.com", ["r1"]⟩], [⟨some "x@y.com ", ["r2"]⟩]] =
      [([⟨"x@y.com", ["r1"]⟩], 0), ([], 1)] := by decide

theorem email_not_mem_seen {p : List CRow × Nat} {r : CRow}
    {fs : List (List Row)} :
    ∀ {seen : List String}, p ∈ runDedup seen fs → r ∈ p.1 →
      ¬ r.email ∈ seen := by
  induction fs with
  | nil => intro seen hp; cases hp
  | cons f fs ih =>
    intro seen hp hr
    rcases List.mem_cons.mp hp with h1 | h1
    · subst h1
      simp only [processFile] at hr
      have := List.of_mem_filter hr
      simpa using this
    · intro hmem
      exact ih h1 hr (List.mem_append_left _ hmem)

theorem runDedup_cross_distinct (seen : List String)
    (fs : List (List Row)) :
    (runDedup seen fs).Pairwise fun p q =>
      ∀ r ∈ p.1, ∀ r2 ∈ q.1, r.email ≠ r2.email := by
  induction fs generalizing seen with
  | nil => exact List.Pairwise.nil
  | cons f fs ih =>
    refine List.pairwise_cons.mpr ⟨?_, ih _⟩
    intro q hq r hr r2 hr2 heq
    apply email_not_mem_seen hq hr2
    rw [processFile_seen_eq, ← heq]
    exact List.mem_append_right _ (List.mem_map_of_mem _ hr)

/-- C2 counterexample: a single input file holding two rows with the same
non-blank email keeps both rows (the seen-set is consulted as it stood
before the file, and updated only afterwards), so the rewritten file set
contains two rows sharing one normalized email that is not the blank
placeholder — the claimed cross-run uniqueness fails. -/
theorem dedup_intrafile_duplicate_cex :
    runDedup [] [[⟨some "a@b.com", ["r1"]⟩, ⟨some "a@b.com", ["r2"]⟩]] =
        [([⟨"a@b.com", ["r1"]⟩, ⟨"a@b.com", ["r2"]⟩], 0)] ∧
      ("a@b.com" : String) ≠ "nan" := by
  exact ⟨by decide, by decide⟩

/-- C2 (amended): cross-file uniqueness.  After a full Deduplicator run,
no two rows written to two distinct files share the same normalized
email (this holds for all rows, blank-derived ones included); only rows
within one and the same file can still share a normalized email. -/
theorem dedup_cross_file_unique (files : List (List Row)) :
    (runDedup [] files).Pairwise fun p q =>
      ∀ r ∈ p.1, ∀ r2 ∈ q.1, r.email ≠ r2.email :=
  runDedup_cross_distinct [] files

/-- Witness for the cross-file uniqueness theorem on a two-file input. -/
theorem dedup_cross_file_unique_witness :
    (⟨"a@b.com", ["r1"]⟩ : CRow).email ≠ (⟨"nan", ["r2"]⟩ : CRow).email := by
  have h := dedup_cross_file_unique
    [[⟨some "a@b.com", ["r1"]⟩], [⟨none, ["r2"]⟩]]
  rw [show runDedup [] [[⟨some "a@b.com", ["r1"]⟩], [⟨none, ["r2"]⟩]] =
    [([⟨"a@b.com", ["r1"]⟩], 0), ([⟨"nan", ["r2"]⟩], 0)] by decide] at h
  exact (List.pairwise_cons.mp h).1 ([⟨"nan", ["r2"]⟩], 0) (by simp)
    ⟨"a@b.com", ["r1"]⟩ (by simp) ⟨"nan", ["r2"]⟩ (by simp)

/-- C3: Deduplicator per-file contract.  Pair each file (in processing
order) with the seen-set as it stood before that file and with what the
run produced for it.  The rows written back are a sublist of the
normalized rows, so the original relative order and all columns are
preserved and the email column holds the normalized value; a written
row's email is never in the prior seen-set; every normalized row whose
email is not in the prior seen-set is written back — in particular a row
duplicating only an earlier row of the same file counts as new and is
kept; the reported count is the number of dropped rows.  Finally, the
seen-set afterwards holds exactly the prior emails plus the written
rows' emails. -/
theorem dedup_per_file_contract (seen : List String)
    (fs : List (List Row)) :
    (∀ s rows out k,
      (s, rows, (out, k)) ∈
          (seensBefore seen fs).zip (fs.zip (runDedup seen fs)) →
        out.Sublist (normalizeFile rows) ∧
          (∀ r ∈ out, ¬ r.email ∈ s) ∧
          (∀ r ∈ normalizeFile rows, ¬ r.email ∈ s → r ∈ out) ∧
          k = rows.length - out.length) ∧
      ∀ s rows x, x ∈ (processFile s rows).2 ↔
        x ∈ s ∨ x ∈ (processFile s rows).1.1.map fun r => r.email := by
  constructor
  · intro s rows out k hmem
    induction fs generalizing seen with
    | nil => cases hmem
    | cons f fs ih =>
      rcases List.mem_cons.mp hmem with h1 | h1
      · rw [Prod.ext_iff] at h1
        obtain ⟨hs, h2⟩ := h1
        rw [Prod.ext_iff] at h2
        obtain ⟨hrows, h3⟩ := h2
        rw [Prod.ext_iff] at h3
        obtain ⟨hout, hk⟩ := h3
        dsimp at hs hrows hout hk
        subst hs hrows hout hk
        refine ⟨List.filter_sublist _, ?_, ?_, ?_⟩
        · intro r hr
          have := List.of_mem_filter hr
          simpa using this
        · intro r hr hnot
          exact List.mem_filter.mpr ⟨hr, by simpa using hnot⟩
        · show (normalizeFile rows).length -
            ((normalizeFile rows).filter _).length = rows.length - _
          rw [show (normalizeFile rows).length = rows.length from
            List.length_map _ _]
          rfl
      · exact ih _ h1
  · intro s rows x
    rw [processFile_seen_eq]
    exact List.mem_append

/-- Witness for the per-file contract at a concrete one-file run. -/
theorem dedup_per_file_contract_witness :
    ([⟨"a@b.com", ["x"]⟩] : List CRow).Sublist
        (normalizeFile [⟨some "A@B.com", ["x"]⟩]) ∧
      (∀ r ∈ ([⟨"a@b.com", ["x"]⟩] : List CRow),
        ¬ r.email ∈ ([] : List String)) ∧
      (∀ r ∈ normalizeFile [⟨some "A@B.com", ["x"]⟩],
        ¬ r.email ∈ ([] : List String) →
          r ∈ ([⟨"a@b.com", ["x"]⟩] : List CRow)) ∧
      (0 : Nat) = [(⟨some "A@B.com", ["x"]⟩ : Row)].length -
        ([⟨"a@b.com", ["x"]⟩] : List CRow).length :=
  (dedup_per_file_contract [] [[⟨some "A@B.com", ["x"]⟩]]).1
    [] [⟨some "A@B.com", ["x"]⟩] [⟨"a@b.com", ["x"]⟩] 0 (by decide)

/-- C5: normalization postcondition.  For every file processed by the
Deduplicator and every row kept in the rewritten output, the row comes
from an input row of the same file with the same payload columns, and
its email column equals trim(lowercase(x)) where x is that row's
stringified original email — the code computes lowercase(trim(x)), and
the two orders coincide. -/
theorem dedup_email_normalized (seen : List String)
    (fs : List (List Row)) :
    ∀ rows out, (rows, out) ∈ fs.zip (runDedup seen fs) →
      ∀ r ∈ out.1, ∃ orig ∈ rows, r.rest = orig.rest ∧
        r.email = pyStrip (pyLower (toStrCell orig.email)) := by
  intro rows out hmem r hr
  induction fs generalizing seen with
  | nil => cases hmem
  | cons f fs ih =>
    rcases List.mem_cons.mp hmem with h1 | h1
    · rw [Prod.ext_iff] at h1
      obtain ⟨hrows, hout⟩ := h1
      dsimp at hrows hout
      subst hrows hout
      simp only [processFile] at hr
      have hdf : r ∈ normalizeFile rows := List.mem_of_mem_filter hr
      obtain ⟨orig, horig, heq⟩ := List.mem_map.mp hdf
      refine ⟨orig, horig, ?_, ?_⟩
      · rw [← heq]
      · rw [← heq]
        show normEmail orig.email = _
        rw [normEmail, pyStrip_pyLower]
    · exact ih _ h1

/-- Witness for the normalization postcondition at a concrete row. -/
theorem dedup_email_normalized_witness :
    ∃ orig ∈ [(⟨some " A@B.com ", ["x"]⟩ : Row)],
      (⟨"a@b.com", ["x"]⟩ : CRow).rest = orig.rest ∧
        (⟨"a@b.com", ["x"]⟩ : CRow).email =
          pyStrip (pyLower (toStrCell orig.email)) :=
  dedup_email_normalized [] [[⟨some " A@B.com ", ["x"]⟩]]
    [⟨some " A@B.com ", ["x"]⟩] ([⟨"a@b.com", ["x"]⟩], 0)
    (by decide) ⟨"a@b.com", ["x"]⟩ (by decide)

/-- C6 counterexample: with file1 holding a non-blank email and file2 a
blank one, the blank-email row of file2 — a file after the first — is
kept, not removed: the placeholder key "nan" only removes blank rows once
some earlier file has contributed a "nan"-keyed row to the seen-set. -/
theorem dedup_blank_kept_cex :
    runDedup [] [[⟨some "a@b.com", ["r1"]⟩], [⟨none, ["r2"]⟩]] =
      [([⟨"a@b.com", ["r1"]⟩], 0), ([⟨"nan", ["r2"]⟩], 0)] := by decide

/-- C6 (amended): missing-email handling.  A missing or blank email cell
is coerced to the fixed literal "nan" before normalization, so all blank
rows share one key; a blank-email row of a file is removed precisely
when "nan" is already in the seen-set when that file is processed (that
is, after the first file that kept a "nan"-keyed row), and is kept when
"nan" is not yet in the seen-set. -/
theorem dedup_placeholder_semantics (seen : List String)
    (fs : List (List Row)) :
    normEmail none = "nan" ∧
      ∀ s rows out k,
        (s, rows, (out, k)) ∈
            (seensBefore seen fs).zip (fs.zip (runDedup seen fs)) →
          (("nan" ∈ s) → ∀ r ∈ out, r.email ≠ "nan") ∧
            (¬ ("nan" ∈ s) → ∀ orig ∈ rows, orig.email = none →
              (⟨"nan", orig.rest⟩ : CRow) ∈ out) := by
  refine ⟨by decide, ?_⟩
  intro s rows out k hmem
  induction fs generalizing seen with
  | nil => cases hmem
  | cons f fs ih =>
    rcases List.mem_cons.mp hmem with h1 | h1
    · rw [Prod.ext_iff] at h1
      obtain ⟨hs, h2⟩ := h1
      rw [Prod.ext_iff] at h2
      obtain ⟨hrows, h3⟩ := h2
      rw [Prod.ext_iff] at h3
      obtain ⟨hout, hk⟩ := h3
      dsimp at hs hrows hout hk
      subst hs hrows hout hk
      constructor
      · intro hnan r hr heq
        have := List.of_mem_filter hr
        rw [heq] at this
        simp only [decide_eq_true_iff] at this
        exact this hnan
      · intro hnan orig horig hblank
        have hdf : (⟨"nan", orig.rest⟩ : CRow) ∈ normalizeFile rows := by
          apply List.mem_map.mpr
          refine ⟨orig, horig, ?_⟩
          rw [hblank]
          rfl
        exact List.mem_filter.mpr ⟨hdf, by simpa using hnan⟩
    · exact ih _ h1

/-- Witness for the placeholder-semantics theorem: second file of a run
whose first file already kept a blank ("nan"-keyed) row. -/
theorem dedup_placeholder_semantics_witness :
    (("nan" ∈ ["nan"]) → ∀ r ∈ ([] : List CRow), r.email ≠ "nan") ∧
      (¬ ("nan" ∈ ["nan"]) → ∀ orig ∈ [(⟨none, ["r2"]⟩ : Row)],
        orig.email = none → (⟨"nan", orig.rest⟩ : CRow) ∈ ([] : List CRow)) :=
  (dedup_placeholder_semantics [] [[⟨none, ["r1"]⟩], [⟨none, ["r2"]⟩]]).2
    ["nan"] [⟨none, ["r2"]⟩] ([] : List CRow) 1 (by decide)

/-- Default NA tokens of `pandas.read_csv`: a field equal to one of these
(including the empty field) is parsed as `NaN`. -/
def naTokens : List String :=
  ["", "#N/A", "#N/A N/A", "#NA", "-1.#IND", "-1.#QNAN", "-NaN", "-nan",
    "1.#IND", "1.#QNAN", "<NA>", "N/A", "NA", "NULL", "NaN", "None",
    "n/a", "nan", "null"]

/-- Re-reading one email cell written by a previous run: `to_csv` writes
the string verbatim, and `read_csv` turns an empty field or an NA token
back into `NaN`. -/
def rereadCell (s : String) : Option String :=
  if s ∈ naTokens then none else some s

/-- Re-reading a whole file written by a previous run; the payload
columns are treated as opaque and carried through unchanged. -/
def rereadFile (rows : List CRow) : List Row :=
  rows.map fun r => ⟨rereadCell r.email, r.rest⟩

/-- C4 counterexample: the first run keeps a whitespace-only email as ""
and a missing email as "nan"; re-reading turns both back into `NaN`, so
the second run sees "nan" twice across the two files and removes a row —
the removed count of the second file is 1, not 0, and both files'
contents change. -/
theorem dedup_not_idempotent_cex :
    runDedup [] [[⟨some " ", ["r1"]⟩], [⟨none, ["r2"]⟩]] =
        [([⟨"", ["r1"]⟩], 0), ([⟨"nan", ["r2"]⟩], 0)] ∧
      runDedup []
          (((runDedup [] [[⟨some " ", ["r1"]⟩], [⟨none, ["r2"]⟩]]).map
            (fun p => p.1)).map rereadFile) =
        [([⟨"nan", ["r1"]⟩], 0), ([], 1)] := by
  exact ⟨by decide, by decide⟩

theorem runDedup_email_norm {p : List CRow × Nat} {r : CRow}
    {fs : List (List Row)} :
    ∀ {seen : List String}, p ∈ runDedup seen fs → r ∈ p.1 →
      ∃ c, r.email = normEmail c := by
  induction fs with
  | nil => intro seen hp; cases hp
  | cons f fs ih =>
    intro seen hp hr
    rcases List.mem_cons.mp hp with h1 | h1
    · subst h1
      simp only [processFile] at hr
      have hdf : r ∈ normalizeFile f := List.mem_of_mem_filter hr
      obtain ⟨orig, _, heq⟩ := List.mem_map.mp hdf
      exact ⟨orig.email, by rw [← heq]⟩
    · exact ih h1 hr

theorem normEmail_normEmail (c : Option String) :
    normEmail (some (normEmail c)) = normEmail c := by
  show pyLower (pyStrip (pyLower (pyStrip (toStrCell c)))) = _
  rw [pyStrip_pyLower, pyLower_idem, pyStrip_idem]
  rfl

theorem runDedup_stable_iteration (L : List (List CRow)) :
    ∀ seen, (∀ f ∈ L, ∀ r ∈ f, rereadCell r.email = some r.email) →
      (∀ f ∈ L, ∀ r ∈ f, normEmail (some r.email) = r.email) →
      (∀ f ∈ L, ∀ r ∈ f, ¬ r.email ∈ seen) →
      L.Pairwise (fun p q => ∀ r ∈ p, ∀ r2 ∈ q, r.email ≠ r2.email) →
      runDedup seen (L.map rereadFile) = L.map fun f => (f, 0) := by
  induction L with
  | nil => intro seen _ _ _ _; rfl
  | cons f L ih =>
    intro seen h1 h2 h3 hpw
    have hid : ∀ r ∈ f, ((fun row : Row =>
        (⟨normEmail row.email, row.rest⟩ : CRow)) ∘ fun r : CRow =>
        (⟨rereadCell r.email, r.rest⟩ : Row)) r = id r := by
      intro r hr
      show (⟨normEmail (rereadCell r.email), r.rest⟩ : CRow) = r
      rw [h1 f (List.mem_cons_self f L) r hr]
      rw [h2 f (List.mem_cons_self f L) r hr]
    have hnf : normalizeFile (rereadFile f) = f := by
      unfold normalizeFile rereadFile
      rw [List.map_map, List.map_congr_left hid, List.map_id]
    have hfilter : List.filter (fun r => decide (¬ r.email ∈ seen)) f
        = f := by
      apply List.filter_eq_self.mpr
      intro r hr
      simpa using h3 f (List.mem_cons_self f L) r hr
    have hpf1 : (processFile seen (rereadFile f)).1 = (f, 0) := by
      simp only [processFile, hnf, hfilter]
      rw [Nat.sub_self]
    have hpf2 : (processFile seen (rereadFile f)).2 =
        seen ++ f.map fun r => r.email := by
      simp only [processFile, hnf, hfilter]
    show (processFile seen (rereadFile f)).1 ::
        runDedup (processFile seen (rereadFile f)).2 (L.map rereadFile) = _
    rw [hpf1, hpf2]
    have hcross := List.pairwise_cons.mp hpw
    have htail := ih (seen ++ f.map fun r => r.email)
      (fun g hg => h1 g (List.mem_cons_of_mem f hg))
      (fun g hg => h2 g (List.mem_cons_of_mem f hg))
      (fun g hg r hr hmem => by
        rcases List.mem_append.mp hmem with hm | hm
        · exact h3 g (List.mem_cons_of_mem f hg) r hr hm
        · obtain ⟨r2, hr2, heq⟩ := List.mem_map.mp hm
          exact hcross.1 g hg r2 hr2 r hr heq)
      hcross.2
    rw [htail]
    rfl

/-- C4 (amended): Deduplicator idempotence under round-trip-stable
emails.  When every email written by the first run survives the
`to_csv`/`read_csv` round trip (is not the empty string or a pandas NA
token), a second run over the re-read files writes every file back
unchanged and reports a removed count of 0 for each file.  Without that
proviso idempotence fails, as the counterexample shows. -/
theorem dedup_idempotent_of_stable (files : List (List Row))
    (hstable : ∀ f ∈ (runDedup [] files).map (fun p => p.1), ∀ r ∈ f,
      rereadCell r.email = some r.email) :
    runDedup [] (((runDedup [] files).map (fun p => p.1)).map rereadFile) =
      ((runDedup [] files).map (fun p => p.1)).map fun f => (f, 0) := by
  refine runDedup_stable_iteration ((runDedup [] files).map fun p => p.1)
    [] hstable ?_ ?_ ?_
  · intro g hg r hr
    obtain ⟨p, hp, heq⟩ := List.mem_map.mp hg
    obtain ⟨c, hc⟩ := runDedup_email_norm hp (heq.symm ▸ hr)
    rw [hc]
    exact normEmail_normEmail c
  · intro g hg r hr hmem
    cases hmem
  · exact List.pairwise_map.mpr (runDedup_cross_distinct [] files)

/-- Witness for the stable-idempotence theorem at a one-row input whose
email survives the round trip. -/
theorem dedup_idempotent_of_stable_witness :
    runDedup [] (((runDedup [] [[⟨some "A@B.com", ["x"]⟩]]).map
        (fun p => p.1)).map rereadFile) =
      ((runDedup [] [[⟨some "A@B.com", ["x"]⟩]]).map
        (fun p => p.1)).map (fun f => (f, 0)) :=
  dedup_idempotent_of_stable [[⟨some "A@B.com", ["x"]⟩]] (by decide)
